import Mathlib

/-!
Verification of the shopping-assistant bot's parsing and suggestion core.

The definitions below are shallow embeddings of the Python sources:
  - src/text_parser.py      (free-text item parsing)
  - src/ml_suggestions.py   (category classification, suggestion scoring)
  - src/database.py         (purchase-pattern aggregation SQL, modelled purely)
  - app/services/ocr_service.py (receipt text parsing)

Python regular expressions are embedded by dedicated matching functions
built from small quantifier combinators that reproduce the backtracking
search of the `re` module (greedy quantifiers try the longest repetition
first, lazy quantifiers the shortest; the cascade of candidate split
points is explicit).  Strings are lists of characters; `float` prices are
rationals; `None` is `Option.none`.
-/

set_option maxRecDepth 100000

namespace ShopBot

/-! ### Python character classes and string helpers -/

/-- Python whitespace for `str.strip`, `str.split` and the regex class
backslash-s: space, tab, newline, carriage return, vertical tab, form feed. -/
def isPySpace (c : Char) : Bool :=
  c = ' ' || c = '\t' || c = '\n' || c = '\r' || c = Char.ofNat 11 || c = Char.ofNat 12

/-- The regex dot: any character except a newline. -/
def isDotChar (c : Char) : Bool :=
  c ≠ '\n'

/-- Regex class of ASCII letters, `[a-zA-Z]`. -/
def isLetterChar (c : Char) : Bool :=
  ('a' ≤ c && c ≤ 'z') || ('A' ≤ c && c ≤ 'Z')

/-- Membership of `[A-Za-z\s]`, the name class of the OCR item patterns. -/
def isLetterOrSpace (c : Char) : Bool :=
  isLetterChar c || isPySpace c

/-- ASCII lowercasing, as `str.lower` acts on the ASCII inputs at hand. -/
def pyLowerL (s : List Char) : List Char :=
  s.map Char.toLower

/-- Python `str.strip()`: drop leading and trailing whitespace. -/
def pyStripL (s : List Char) : List Char :=
  ((((s.dropWhile isPySpace).reverse).dropWhile isPySpace).reverse)

/-- Python `str.strip()` on strings. -/
def pyStrip (s : String) : String :=
  ⟨pyStripL s.data⟩

/-- Does `hay` start with `needle`? -/
def startsWithL : List Char → List Char → Bool
  | [], _ => true
  | _ :: _, [] => false
  | a :: n, b :: h => a = b && startsWithL n h

/-- Python substring containment, `needle in hay` (true for the empty needle). -/
def containsL (hay needle : List Char) : Bool :=
  match hay with
  | [] => startsWithL needle []
  | _ :: t => startsWithL needle hay || containsL t needle

/-- Does `s` end with `suffixChars`? -/
def endsWithL (s suffixChars : List Char) : Bool :=
  startsWithL suffixChars.reverse s.reverse

/-- Python `str.split()` with no argument: words separated by whitespace runs. -/
def wordsAux (cur : List Char) : List Char → List (List Char)
  | [] => if cur.isEmpty then [] else [cur.reverse]
  | c :: t =>
    if isPySpace c then
      if cur.isEmpty then wordsAux [] t else cur.reverse :: wordsAux [] t
    else wordsAux (c :: cur) t

/-- The whitespace-separated words of a character list. -/
def wordsOf (s : List Char) : List (List Char) :=
  wordsAux [] s

/-- Python `' '.join(name.split())`: normalize all whitespace to single spaces. -/
def joinWordsL (s : List Char) : List Char :=
  List.intercalate [' '] (wordsOf s)

/-- Python `str.title()` restricted to ASCII letters: a letter is uppercased
when the previous character is not a letter, lowercased otherwise. -/
def pyTitleAux : List Char → Bool → List Char
  | [], _ => []
  | c :: t, prev =>
    if isLetterChar c then
      (if prev then c.toLower else c.toUpper) :: pyTitleAux t true
    else c :: pyTitleAux t false

/-- Python `str.title()`. -/
def pyTitleL (s : List Char) : List Char :=
  pyTitleAux s false

/-- Numeric value of a digit string. -/
def natOfDigits (s : List Char) : ℕ :=
  s.foldl (fun n c => 10 * n + (c.toNat - '0'.toNat)) 0

/-! ### Regex quantifier combinators

Each quantified subpattern of the embedded regexes ranges over a single
character class, so a quantifier amounts to choosing how many leading
class characters to consume.  A greedy quantifier tries the candidate
counts from the longest run downward, a lazy one from the shortest
upward; the continuation `k` receives the consumed prefix and the rest,
and the first candidate for which the continuation succeeds wins, exactly
as in the `re` module's backtracking search. -/

/-- First successful value of `f` over a list of candidate repetition counts. -/
def firstSome (f : ℕ → Option α) : List ℕ → Option α
  | [] => none
  | i :: is =>
    match f i with
    | some a => some a
    | none => firstSome f is

/-- Candidate counts lo, lo+1, ..., hi (empty when hi < lo). -/
def ascRange (lo hi : ℕ) : List ℕ :=
  List.range' lo (hi + 1 - lo)

/-- Length of the maximal leading run of class characters. -/
def headRun (p : Char → Bool) (s : List Char) : ℕ :=
  (s.takeWhile p).length

/-- Greedy quantifier over class `p` with minimum count `lo` (so `lo = 0`
embeds a star and `lo = 1` a plus): longest repetition first. -/
def greedyQ (p : Char → Bool) (lo : ℕ) (s : List Char)
    (k : List Char → List Char → Option α) : Option α :=
  firstSome (fun i => k (s.take i) (s.drop i)) (ascRange lo (headRun p s)).reverse

/-- Lazy quantifier over class `p`: shortest repetition first. -/
def lazyQ (p : Char → Bool) (lo : ℕ) (s : List Char)
    (k : List Char → List Char → Option α) : Option α :=
  firstSome (fun i => k (s.take i) (s.drop i)) (ascRange lo (headRun p s))

/-- Greedy bounded repetition `p{lo,hi}`. -/
def repRange (p : Char → Bool) (lo hi : ℕ) (s : List Char)
    (k : List Char → List Char → Option α) : Option α :=
  firstSome (fun i => k (s.take i) (s.drop i))
    (ascRange lo (min hi (headRun p s))).reverse

/-- One literal character. -/
def litChar (c : Char) (s : List Char) (k : List Char → Option α) : Option α :=
  match s with
  | a :: t => if a = c then k t else none
  | [] => none

/-- One character from a class, passed to the continuation. -/
def oneOf (p : Char → Bool) (s : List Char)
    (k : Char → List Char → Option α) : Option α :=
  match s with
  | a :: t => if p a then k a t else none
  | [] => none

/-- End-of-input for an unanchored Python `$`: the end of the string or a
position just before a final newline. -/
def atEnd (s : List Char) : Bool :=
  match s with
  | [] => true
  | [c] => c = '\n'
  | _ => false

/-- The tail `(.+)$` with a greedy dot-plus: consumes the whole rest (up to
one trailing newline) and hands the captured group to the continuation. -/
def dotPlusEnd (s : List Char) (k : List Char → Option α) : Option α :=
  greedyQ isDotChar 1 s (fun g rest => if atEnd rest then k g else none)

/-! ### Python float literals

`TextParser._is_number` calls `float(text.replace(',', '.'))` and reports
whether it raises.  `float` accepts optional surrounding whitespace, an
optional sign, and either a decimal literal (digit groups may contain
single underscores between digits, an optional fractional part, and an
optional exponent) or one of the words inf, infinity, nan. -/

/-- Consume the rest of a digit group: digits with single underscores
allowed between digits. -/
def digitGroupRest : List Char → List Char
  | [] => []
  | c :: r =>
    if c.isDigit then digitGroupRest r
    else if c = '_' then
      match r with
      | d :: r' => if d.isDigit then digitGroupRest r' else c :: r
      | [] => c :: r
    else c :: r

/-- Consume a digit group (at least one leading digit); `none` if absent. -/
def digitGroup : List Char → Option (List Char)
  | [] => none
  | c :: r => if c.isDigit then some (digitGroupRest r) else none

/-- Accept an optional exponent part then the end of the literal. -/
def expOk : List Char → Bool
  | [] => true
  | c :: r =>
    if c = 'e' ∨ c = 'E' then
      let r' := match r with
        | s :: r'' => if s = '+' ∨ s = '-' then r'' else s :: r''
        | [] => []
      match digitGroup r' with
      | some [] => true
      | _ => false
    else false

/-- Accept a decimal mantissa (digits, digits-dot, digits-dot-digits or
dot-digits) followed by an optional exponent. -/
def mantissaOk (t : List Char) : Bool :=
  match digitGroup t with
  | some r =>
    match r with
    | '.' :: r' =>
      match digitGroup r' with
      | some r'' => expOk r''
      | none => expOk r'
    | _ => expOk r
  | none =>
    match t with
    | '.' :: r' =>
      match digitGroup r' with
      | some r'' => expOk r''
      | none => false
    | _ => false

/-- Would Python's `float` accept this string? -/
def isPyFloatLit (s : List Char) : Bool :=
  let t := pyStripL s
  let t := match t with
    | c :: r => if c = '+' ∨ c = '-' then r else c :: r
    | [] => []
  let tl := pyLowerL t
  if tl = "inf".data ∨ tl = "infinity".data ∨ tl = "nan".data then true
  else mantissaOk t

/-! ### TextParser (src/text_parser.py) -/

/-- The unit vocabulary of `TextParser.__init__`: the weight, volume and
count variant lists, flattened in dictionary insertion order. -/
def allUnits : List String :=
  ["kg", "g", "gram", "grams", "kilogram", "kilograms", "lb", "lbs", "pound",
   "pounds", "oz", "ounce", "ounces",
   "l", "liter", "liters", "litre", "litres", "ml", "milliliter", "milliliters",
   "cup", "cups", "pint", "pints",
   "unit", "units", "piece", "pieces", "pc", "pcs", "item", "items", "pack",
   "packs", "box", "boxes"]

/-- `TextParser._is_unit`: case-insensitive membership in the unit list. -/
def is_unit (u : String) : Bool :=
  allUnits.any (fun v => pyLowerL v.data = pyLowerL u.data)

/-- `TextParser._is_number`: replace commas by dots, then ask whether
Python's `float` would accept the result. -/
def is_number (t : String) : Bool :=
  isPyFloatLit (t.data.map (fun c => if c = ',' then '.' else c))

/-- The optional fraction `(?:[.,]\d+)?` (greedy: taken when possible,
with fallback to the empty alternative). -/
def optFrac : List Char → (List Char → List Char → Option α) → Option α
  | c :: r, k =>
    (if c = '.' ∨ c = ',' then
      greedyQ Char.isDigit 1 r (fun ds rest => k (c :: ds) rest)
    else none).orElse (fun _ => k [] (c :: r))
  | [], k => (none : Option α).orElse (fun _ => k [] [])

/-- Item pattern 1 of `_parse_single_item`, for fragments like "2kg apples". -/
def matchTP1 (s : List Char) : Option (List Char × List Char × List Char) :=
  greedyQ Char.isDigit 1 s (fun d r1 =>
    optFrac r1 (fun fr r2 =>
      greedyQ isPySpace 0 r2 (fun _ r3 =>
        greedyQ isLetterChar 1 r3 (fun u r4 =>
          greedyQ isPySpace 1 r4 (fun _ r5 =>
            dotPlusEnd r5 (fun nm => some (d ++ fr, u, nm)))))))

/-- Item pattern 2 of `_parse_single_item`, for fragments like "apples 2kg". -/
def matchTP2 (s : List Char) : Option (List Char × List Char × List Char) :=
  lazyQ isDotChar 1 s (fun g1 r1 =>
    greedyQ isPySpace 1 r1 (fun _ r2 =>
      greedyQ Char.isDigit 1 r2 (fun d r3 =>
        optFrac r3 (fun fr r4 =>
          greedyQ isPySpace 0 r4 (fun _ r5 =>
            greedyQ isLetterChar 1 r5 (fun u r6 =>
              if atEnd r6 then some (g1, d ++ fr, u) else none))))))

/-- Item pattern 3 of `_parse_single_item`, for fragments like "2 apples". -/
def matchTP3 (s : List Char) : Option (List Char × List Char) :=
  greedyQ Char.isDigit 1 s (fun d r1 =>
    greedyQ isPySpace 1 r1 (fun _ r2 =>
      dotPlusEnd r2 (fun nm => some (d, nm))))

/-- Item pattern 4 of `_parse_single_item`, for fragments like "apples 2". -/
def matchTP4 (s : List Char) : Option (List Char × List Char) :=
  lazyQ isDotChar 1 s (fun g1 r1 =>
    greedyQ isPySpace 1 r1 (fun _ r2 =>
      greedyQ Char.isDigit 1 r2 (fun d r3 =>
        if atEnd r3 then some (g1, d) else none)))

/-- Item pattern 5 of `_parse_single_item`: the whole fragment as a name. -/
def matchTP5 (s : List Char) : Option (List Char) :=
  dotPlusEnd s (fun nm => some nm)

/-- A parsed free-text item, with the string-typed fields the Python dict
carries (`quantity` stays a string in `text_parser.py`). -/
structure Item where
  name : String
  quantity : String
  unit : String
  raw_text : String
deriving DecidableEq, Repr

/-- The leading articles removed by `_clean_item_name`. -/
def articles : List String :=
  ["a", "an", "the", "some", "of"]

/-- Remove a leading article followed by whitespace (the anchored,
case-insensitive substitution of `_clean_item_name`). -/
def dropLeadingArticle (n : List Char) : List Char :=
  match articles.find? (fun a =>
      startsWithL a.data (pyLowerL n) &&
      (((n.drop a.length).head?.map isPySpace).getD false)) with
  | some a => (n.drop a.length).dropWhile isPySpace
  | none => n

/-- One pass of the trailing-unit substitution: remove a final whitespace
run followed by the given unit word (case-insensitive), if present. -/
def dropTrailingUnit (u : String) (n : List Char) : List Char :=
  if endsWithL (pyLowerL n) u.data then
    let m := n.take (n.length - u.length)
    if (m.reverse.head?.map isPySpace).getD false then
      (m.reverse.dropWhile isPySpace).reverse
    else n
  else n

/-- `TextParser._clean_item_name`: whitespace normalization, leading-article
removal, trailing-unit removal for every unit variant in order, then
`strip().title()`. -/
def clean_item_name (name : String) : String :=
  let n := joinWordsL name.data
  let n := dropLeadingArticle n
  let n := allUnits.foldl (fun acc u => dropTrailingUnit u acc) n
  ⟨pyTitleL (pyStripL n)⟩

/-- The three-group branch of `_parse_single_item` (patterns 1 and 2):
either (quantity, unit, name) or (name, quantity, unit). -/
def threeGroups (s : String) (g1 g2 g3 : List Char) : Item :=
  if is_number ⟨g1⟩ then
    { name := ⟨g3⟩, quantity := ⟨g1⟩,
      unit := if is_unit ⟨g2⟩ then ⟨g2⟩ else "", raw_text := s }
  else
    { name := ⟨g1⟩, quantity := ⟨g2⟩,
      unit := if is_unit ⟨g3⟩ then ⟨g3⟩ else "", raw_text := s }

/-- The two-group branch of `_parse_single_item` (patterns 3 and 4):
either (quantity, name) or (name, quantity), default unit "units". -/
def twoGroups (s : String) (g1 g2 : List Char) : Item :=
  if is_number ⟨g1⟩ then
    { name := ⟨g2⟩, quantity := ⟨g1⟩, unit := "units", raw_text := s }
  else
    if is_number ⟨g2⟩ then
      { name := ⟨g1⟩, quantity := ⟨g2⟩, unit := "units", raw_text := s }
    else
      { name := ⟨g1 ++ ' ' :: g2⟩, quantity := "", unit := "", raw_text := s }

/-- The pattern cascade of `_parse_single_item` before cleaning: the five
patterns are tried in order on the stripped fragment, first match wins;
if none matches, the item keeps its empty initial fields. -/
def rawItemOf (s : String) : Item :=
  let t := pyStripL s.data
  match matchTP1 t with
  | some (g1, g2, g3) => threeGroups s g1 g2 g3
  | none =>
    match matchTP2 t with
    | some (g1, g2, g3) => threeGroups s g1 g2 g3
    | none =>
      match matchTP3 t with
      | some (g1, g2) => twoGroups s g1 g2
      | none =>
        match matchTP4 t with
        | some (g1, g2) => twoGroups s g1 g2
        | none =>
          match matchTP5 t with
          | some g1 =>
            { name := ⟨g1⟩, quantity := "unknown", unit := "", raw_text := s }
          | none =>
            { name := "", quantity := "", unit := "", raw_text := s }

/-- `TextParser._parse_single_item`: `None` for fragments shorter than two
characters, otherwise the pattern cascade followed by name cleaning and
the final length-two validation of the cleaned name. -/
def parse_single_item (s : String) : Option Item :=
  if s.length < 2 then none
  else
    let item := rawItemOf s
    let item := { item with name := clean_item_name item.name }
    if item.name.length < 2 then none else some item

/-- A whole-token occurrence: `tok` is nonempty and occurs contiguously in
`frag` with no letter adjacent on either side, so it is a complete letter
token of the fragment exactly as written there. -/
def tokenOf (frag tok : List Char) : Prop :=
  tok ≠ [] ∧ ∃ pre suf, frag = pre ++ tok ++ suf ∧
    (∀ c, pre.getLast? = some c → isLetterChar c = false) ∧
    (∀ c, suf.head? = some c → isLetterChar c = false)

/-! ### Category classifier (src/ml_suggestions.py, categorize_item) -/

/-- Word characters for the regex word boundary: letters, digits, underscore. -/
def isWordChar (c : Char) : Bool :=
  isLetterChar c || c.isDigit || c = '_'

/-- Is there a word boundary between an optional left character and an
optional right character (none meaning the edge of the string)? -/
def isBoundary (a b : Option Char) : Bool :=
  ((a.map isWordChar).getD false) != ((b.map isWordChar).getD false)

/-- Does `needle` occur in `hay` at a position whose two ends are word
boundaries, given the character just before the current position? -/
def wbAux (needle : List Char) : List Char → Option Char → Bool
  | hay, pre =>
    (startsWithL needle hay &&
      (match needle with
        | [] => false
        | _ :: _ =>
          isBoundary pre needle.head? &&
          isBoundary needle.getLast? (hay.drop needle.length).head?)) ||
    (match hay with
      | [] => false
      | c :: t => wbAux needle t (some c))

/-- The word-boundary search of the dead third branch of the keyword
scoring chain. -/
def wordBoundaryMatch (hay needle : List Char) : Bool :=
  wbAux needle hay none

/-- The per-keyword score of `categorize_item`: the guarded chain
exact-match 10 / substring 5 / word-boundary 7, inside the outer
substring test.  (The elif ordering makes the 7-point branch
unreachable: it is kept verbatim.) -/
def keywordScore (nameL kwL : List Char) : ℕ :=
  if containsL nameL kwL then
    if kwL = nameL then 10
    else if containsL nameL kwL then 5
    else if wordBoundaryMatch nameL kwL then 7
    else 0
  else 0

/-- A category's total score: the sum of its keyword scores against the
lowercased item name. -/
def categoryScore (keywords : List String) (nameL : List Char) : ℕ :=
  (keywords.map (fun kw => keywordScore nameL (pyLowerL kw.data))).sum

/-- Python's `max(scores, key=scores.get)` over the category/score pairs in
iteration order: the first pair attaining the maximal score. -/
def pyMaxByVal : List (String × ℕ) → Option (String × ℕ)
  | [] => none
  | x :: t => some (t.foldl (fun best y => if best.2 < y.2 then y else best) x)

/-- `MLSuggestions.categorize_item`: score every category of the keyword
table (an ordered association list, as a Python dict) against the
lowercased item name and return the best-scoring category, or "other"
when the table is empty or the best score is zero. -/
def categorize_item (tbl : List (String × List String)) (name : String) : String :=
  let nameL := pyLowerL name.data
  let scores := tbl.map (fun ck => (ck.1, categoryScore ck.2 nameL))
  match pyMaxByVal scores with
  | some cs => if 0 < cs.2 then cs.1 else "other"
  | none => "other"

/-- Modelled from the spec: the per-keyword rule C2 describes — 10 for an
exact full-string match, otherwise 7 for a word-boundary substring match,
otherwise 5 for a loose substring match (highest applicable rule only). -/
def claimKeywordScore (nameL kwL : List Char) : ℕ :=
  if kwL = nameL then 10
  else if wordBoundaryMatch nameL kwL then 7
  else if containsL nameL kwL then 5
  else 0

/-- Modelled from the spec: the classifier C2 describes, identical to the
code's argmax except that each keyword is scored by `claimKeywordScore`. -/
def claimCategorize (tbl : List (String × List String)) (name : String) : String :=
  let nameL := pyLowerL name.data
  let scores := tbl.map (fun ck =>
    (ck.1, (ck.2.map (fun kw => claimKeywordScore nameL (pyLowerL kw.data))).sum))
  match pyMaxByVal scores with
  | some cs => if 0 < cs.2 then cs.1 else "other"
  | none => "other"

/-- The per-keyword rule the code actually implements: 10 for an exact
full-string match, else 5 for any substring match, never 7. -/
def amendedKeywordScore (nameL kwL : List Char) : ℕ :=
  if kwL = nameL then 10
  else if containsL nameL kwL then 5
  else 0

/-- The classifier with the amended per-keyword rule. -/
def amendedCategorize (tbl : List (String × List String)) (name : String) : String :=
  let nameL := pyLowerL name.data
  let scores := tbl.map (fun ck =>
    (ck.1, (ck.2.map (fun kw => amendedKeywordScore nameL (pyLowerL kw.data))).sum))
  match pyMaxByVal scores with
  | some cs => if 0 < cs.2 then cs.1 else "other"
  | none => "other"

/-! ### Suggestion scorer (src/ml_suggestions.py) -/

/-- One row of `database.get_purchase_patterns`: dates are epoch-second
timestamps, `avg_days_since` is the SQL average age in days. -/
structure PatternRow where
  item_name : String
  category : String
  frequency : ℕ
  avg_days_since : ℚ
  last_purchase : ℚ
  first_purchase : ℚ
deriving DecidableEq, Repr

/-- One entry of the suggestion dict built by
`generate_shopping_suggestions`. -/
structure Suggestion where
  name : String
  confidence : ℚ
  frequency : ℕ
  days_since_last : ℤ
  avg_interval : ℚ
deriving DecidableEq, Repr

/-- `MLSuggestions._calculate_suggestion_confidence`: the weighted sum of
the frequency, time and regularity scores, the age-decay multipliers, and
the final cap at 1. -/
def calc_suggestion_confidence (frequency : ℤ) (days_since_last : ℤ)
    (avg_days_since purchases_per_week : ℚ) : ℚ :=
  let frequency_score : ℚ := min ((frequency : ℚ) / 10) 1
  let time_score : ℚ :=
    if 0 < avg_days_since then
      max 0 (min 1 ((days_since_last : ℚ) / avg_days_since))
    else 0.5
  let regularity_score : ℚ :=
    if 0 < purchases_per_week then min purchases_per_week 1 else 0.1
  let confidence : ℚ :=
    frequency_score * 0.4 + time_score * 0.4 + regularity_score * 0.2
  let confidence : ℚ :=
    if 60 < days_since_last then confidence * 0.5
    else if 30 < days_since_last then confidence * 0.8
    else confidence
  min confidence 1

/-- The per-pattern suggestion of `generate_shopping_suggestions`:
timedelta `.days` floors the fractional day count. -/
def suggestionOf (now : ℚ) (p : PatternRow) : Suggestion :=
  let days_since_last : ℤ := ⌊(now - p.last_purchase) / 86400⌋
  let total_days : ℤ := ⌊(now - p.first_purchase) / 86400⌋
  let purchases_per_week : ℚ :=
    if 0 < total_days then ((p.frequency : ℚ) * 7) / (total_days : ℚ) else 0
  { name := p.item_name,
    confidence :=
      calc_suggestion_confidence (p.frequency : ℤ) days_since_last
        p.avg_days_since purchases_per_week,
    frequency := p.frequency,
    days_since_last := days_since_last,
    avg_interval := p.avg_days_since }

/-- Keep the first occurrence of an element not yet seen. -/
def dedupFirstAux [DecidableEq α] (seen : List α) : List α → List α
  | [] => []
  | a :: l =>
    if a ∈ seen then dedupFirstAux seen l
    else a :: dedupFirstAux (a :: seen) l

/-- Keep the first occurrence of every element (the key order of a Python
dict built by first insertion). -/
def dedupFirst [DecidableEq α] (l : List α) : List α :=
  dedupFirstAux [] l

/-- Descending-by-confidence comparison used to sort each category list
(Python's stable `sort(key=confidence, reverse=True)`). -/
def confGE (a b : Suggestion) : Prop :=
  b.confidence ≤ a.confidence

instance : DecidableRel confGE :=
  fun a b => inferInstanceAs (Decidable (b.confidence ≤ a.confidence))

instance : IsTotal Suggestion confGE :=
  ⟨fun a b => le_total b.confidence a.confidence⟩

instance : IsTrans Suggestion confGE :=
  ⟨fun _ _ _ h1 h2 => le_trans h2 h1⟩

/-- `MLSuggestions.generate_shopping_suggestions` as a pure function of the
current time and the fetched pattern rows: keep patterns whose confidence
exceeds 0.3, group them by category in first-appearance order, sort each
group by descending confidence and truncate it to five entries. -/
def generate_shopping_suggestions (now : ℚ) (patterns : List PatternRow) :
    List (String × List Suggestion) :=
  let qualifying := patterns.filterMap (fun p =>
    let s := suggestionOf now p
    if (0.3 : ℚ) < s.confidence then some (p.category, s) else none)
  let cats := dedupFirst (qualifying.map Prod.fst)
  cats.map (fun c =>
    (c, (List.insertionSort confGE
          ((qualifying.filter (fun q => q.1 = c)).map Prod.snd)).take 5))

/-! ### Purchase pattern aggregation (src/database.py, get_purchase_patterns)

The SQL is modelled purely: the purchases table filtered to one user
becomes a list of rows, CURRENT_TIMESTAMP a parameter `now`, both as
epoch-second rationals.  GROUP BY iterates the distinct
(item_name, category) keys; the output ORDER BY frequency DESC is a
stable descending sort (ties keep an arbitrary SQL order; the embedding
fixes first-appearance order). -/

/-- One purchases row for the queried user. -/
structure Purchase where
  item_name : String
  category : String
  purchase_date : ℚ
deriving DecidableEq, Repr

/-- The grouping key. -/
def keyOf (r : Purchase) : String × String :=
  (r.item_name, r.category)

/-- The purchase dates of one (item_name, category) group. -/
def groupDates (rows : List Purchase) (k : String × String) : List ℚ :=
  (rows.filter (fun r => keyOf r = k)).map (fun r => r.purchase_date)

/-- Maximum of a nonempty rational list (0 for the empty list, unused). -/
def maxOf : List ℚ → ℚ
  | [] => 0
  | h :: t => t.foldl max h

/-- Minimum of a nonempty rational list (0 for the empty list, unused). -/
def minOf : List ℚ → ℚ
  | [] => 0
  | h :: t => t.foldl min h

/-- Descending-by-frequency comparison for the output ORDER BY. -/
def freqGE (a b : PatternRow) : Prop :=
  b.frequency ≤ a.frequency

instance : DecidableRel freqGE :=
  fun a b => inferInstanceAs (Decidable (b.frequency ≤ a.frequency))

instance : IsTotal PatternRow freqGE :=
  ⟨fun a b => le_total b.frequency a.frequency⟩

instance : IsTrans PatternRow freqGE :=
  ⟨fun _ _ _ h1 h2 => le_trans h2 h1⟩

/-- The aggregate row of one group: COUNT, the AVG of
EXTRACT(EPOCH FROM now - purchase_date)/86400, MAX and MIN of the date. -/
def patternOfGroup (now : ℚ) (k : String × String) (ds : List ℚ) : PatternRow :=
  { item_name := k.1, category := k.2, frequency := ds.length,
    avg_days_since := ((ds.map (fun d => (now - d) / 86400)).sum) / (ds.length : ℚ),
    last_purchase := maxOf ds, first_purchase := minOf ds }

/-- `DatabaseManager.get_purchase_patterns` for one user: group by
(item_name, category), keep groups with more than one row
(HAVING COUNT(*) > 1), aggregate, and order by descending frequency. -/
def get_purchase_patterns (now : ℚ) (rows : List Purchase) : List PatternRow :=
  let keys := dedupFirst (rows.map keyOf)
  let pats := keys.filterMap (fun k =>
    let ds := groupDates rows k
    if 1 < ds.length then some (patternOfGroup now k ds) else none)
  List.insertionSort freqGE pats

/-! ### OCR receipt parsing (app/services/ocr_service.py) -/

/-- The price regex of `OCRService`: an optional dollar sign, then the
captured group of digits, a dot or comma, and exactly two digits.  The
matcher at one position returns the captured group and the remaining
input after the full match.  When the position starts with a dollar sign
the only viable alternative of the optional quantifier consumes it. -/
def priceCore (u : List Char) : Option (List Char × List Char) :=
  greedyQ Char.isDigit 1 u (fun d r1 =>
    match r1 with
    | c :: a :: b :: rest =>
      if (c = '.' ∨ c = ',') ∧ a.isDigit ∧ b.isDigit then
        some (d ++ [c, a, b], rest)
      else none
    | _ => none)

/-- Match the price pattern at the head of the input. -/
def matchPriceAt (s : List Char) : Option (List Char × List Char) :=
  match s with
  | '$' :: r => priceCore r
  | _ => priceCore s

/-- `re.findall` of the price pattern: scan left to right, collect the
captured groups of non-overlapping matches, resuming after each match.
The fuel starts at the input length; every match consumes at least one
character, so it never runs out. -/
def priceFindAllAux : ℕ → List Char → List (List Char)
  | 0, _ => []
  | _ + 1, [] => []
  | fuel + 1, c :: rest =>
    match matchPriceAt (c :: rest) with
    | some (g, remaining) => g :: priceFindAllAux fuel remaining
    | none => priceFindAllAux fuel rest

/-- All captured price groups of a line. -/
def priceFindAll (s : List Char) : List (List Char) :=
  priceFindAllAux s.length s

/-- `re.sub` of the price pattern with the empty replacement: delete every
non-overlapping match (including a leading dollar sign). -/
def priceSubAux : ℕ → List Char → List Char
  | 0, s => s
  | _ + 1, [] => []
  | fuel + 1, c :: rest =>
    match matchPriceAt (c :: rest) with
    | some (_, remaining) => priceSubAux fuel remaining
    | none => c :: priceSubAux fuel rest

/-- The line with every price match deleted. -/
def priceSub (s : List Char) : List Char :=
  priceSubAux s.length s

/-- `float` of a matched price group after the comma-to-dot replacement:
an integer part, a separator, and a two-digit fraction. -/
def priceVal (cs : List Char) : ℚ :=
  let ip := cs.takeWhile Char.isDigit
  let rest := cs.dropWhile Char.isDigit
  match rest with
  | _ :: f => (natOfDigits ip : ℚ) + (natOfDigits f : ℚ) / ((10 : ℚ) ^ f.length)
  | [] => (natOfDigits ip : ℚ)

/-- One extracted receipt item: the OCR item dicts carry a name, an
integer quantity and two float prices. -/
structure OcrItem where
  name : String
  quantity : ℕ
  unit_price : ℚ
  total_price : ℚ
deriving DecidableEq, Repr

/-- The dict built by `OCRService._parse_receipt_text` ('total' and 'tax'
are plain floats initialised to 0.0; 'store_name' and 'date' start as
None). -/
structure OcrResult where
  items : List OcrItem
  total : ℚ
  store_name : Option String
  date : Option String
  tax : ℚ
deriving DecidableEq, Repr

/-- The first OCR item pattern: a name of letters and whitespace, then
whitespace and a final price. -/
def matchOcrP1 (s : List Char) : Option (List Char × List Char) :=
  greedyQ isLetterOrSpace 1 s (fun g1 r1 =>
    greedyQ isPySpace 1 r1 (fun _ r2 =>
      greedyQ Char.isDigit 1 r2 (fun d r3 =>
        match r3 with
        | c :: a :: b :: rest =>
          if (c = '.' ∨ c = ',') ∧ a.isDigit ∧ b.isDigit ∧ atEnd rest then
            some (g1, d ++ [c, a, b])
          else none
        | _ => none)))

/-- A price group in the middle of a pattern: digits, a separator, exactly
two digits, then the continuation. -/
def priceGroupMid (s : List Char)
    (k : List Char → List Char → Option α) : Option α :=
  greedyQ Char.isDigit 1 s (fun d r1 =>
    match r1 with
    | c :: a :: b :: rest =>
      if (c = '.' ∨ c = ',') ∧ a.isDigit ∧ b.isDigit then
        k (d ++ [c, a, b]) rest
      else none
    | _ => none)

/-- An optional literal equals sign. -/
def optEq (s : List Char) (k : List Char → Option α) : Option α :=
  (match s with
    | '=' :: t => k t
    | _ => none).orElse (fun _ => k s)

/-- The second OCR item pattern: name, quantity, a literal x, a unit
price, an optional equals sign, and a total price at the end. -/
def matchOcrP2 (s : List Char) :
    Option (List Char × List Char × List Char × List Char) :=
  greedyQ isLetterOrSpace 1 s (fun g1 r1 =>
    greedyQ isPySpace 1 r1 (fun _ r2 =>
      greedyQ Char.isDigit 1 r2 (fun q r3 =>
        greedyQ isPySpace 0 r3 (fun _ r4 =>
          litChar 'x' r4 (fun r5 =>
            greedyQ isPySpace 0 r5 (fun _ r6 =>
              priceGroupMid r6 (fun up r7 =>
                greedyQ isPySpace 0 r7 (fun _ r8 =>
                  optEq r8 (fun r9 =>
                    greedyQ isPySpace 0 r9 (fun _ r10 =>
                      priceGroupMid r10 (fun tp r11 =>
                        if atEnd r11 then some (g1, q, up, tp)
                        else none)))))))))))

/-- Python `len(line.split())`: the number of whitespace-separated words. -/
def wordCount (s : List Char) : ℕ :=
  (wordsOf s).length

/-- `OCRService._extract_item_from_line`: try the two anchored item
patterns on the stripped line, then fall back to the last price found
anywhere in the line with the price matches deleted from the name. -/
def extract_item_from_line (line : String) : Option OcrItem :=
  let t := pyStripL line.data
  match matchOcrP1 t with
  | some (g1, pr) =>
    some { name := ⟨pyStripL g1⟩, quantity := 1,
           unit_price := priceVal pr, total_price := priceVal pr }
  | none =>
    match matchOcrP2 t with
    | some (g1, q, up, tp) =>
      some { name := ⟨pyStripL g1⟩, quantity := natOfDigits q,
             unit_price := priceVal up, total_price := priceVal tp }
    | none =>
      let prices := priceFindAll line.data
      if prices ≠ [] ∧ 1 < wordCount line.data then
        match prices.getLast? with
        | some p =>
          let price := priceVal p
          let item_name : String := ⟨pyStripL (priceSub line.data)⟩
          if item_name ≠ "" ∧ 2 < item_name.length then
            some { name := item_name, quantity := 1,
                   unit_price := price, total_price := price }
          else none
        | none => none
      else none

/-- The total keywords of `_extract_total`. -/
def totalKeywords : List String :=
  ["total", "sum", "amount", "gesamt", "suma"]

/-- Does the lowercased line contain one of the total keywords? -/
def hasTotalKeyword (line : String) : Bool :=
  totalKeywords.any (fun kw => containsL (pyLowerL line.data) kw.data)

/-- The bottom-up scan of `_extract_total`: walk the reversed line list and
return the last price of the first line that has a total keyword and at
least one price. -/
def extractTotalGo : List String → Option ℚ
  | [] => none
  | l :: rest =>
    if hasTotalKeyword l then
      match (priceFindAll l.data).getLast? with
      | some p => some (priceVal p)
      | none => extractTotalGo rest
    else extractTotalGo rest

/-- Maximum of a price list, `None` when empty (Python's `max`). -/
def maxListQ : List ℚ → Option ℚ
  | [] => none
  | h :: t => some (t.foldl max h)

/-- Every price value found on any line, in line order. -/
def allPrices (lines : List String) : List ℚ :=
  (lines.map (fun l => (priceFindAll l.data).map priceVal)).flatten

/-- `OCRService._extract_total`: the keyword scan over the reversed lines,
falling back to the maximum of all prices in the text, or `None`. -/
def extract_total (lines : List String) : Option ℚ :=
  match extractTotalGo lines.reverse with
  | some v => some v
  | none => maxListQ (allPrices lines)

/-- A separator of the first date pattern, dot or slash. -/
def isDateSep1 (c : Char) : Bool :=
  c = '.' || c = '/'

/-- The first date pattern at one position: one or two digits, a
separator, one or two digits, a separator, two to four digits. -/
def matchDateA (s : List Char) : Option (List Char) :=
  repRange Char.isDigit 1 2 s (fun a r1 =>
    oneOf isDateSep1 r1 (fun c1 r2 =>
      repRange Char.isDigit 1 2 r2 (fun b r3 =>
        oneOf isDateSep1 r3 (fun c2 r4 =>
          repRange Char.isDigit 2 4 r4 (fun d _ =>
            some (a ++ c1 :: b ++ c2 :: d))))))

/-- The second date pattern at one position: two to four digits, a hyphen,
one or two digits, a hyphen, one or two digits. -/
def matchDateB (s : List Char) : Option (List Char) :=
  repRange Char.isDigit 2 4 s (fun a r1 =>
    litChar '-' r1 (fun r2 =>
      repRange Char.isDigit 1 2 r2 (fun b r3 =>
        litChar '-' r3 (fun r4 =>
          repRange Char.isDigit 1 2 r4 (fun d _ =>
            some (a ++ '-' :: b ++ '-' :: d))))))

/-- `re.search`: the first position, left to right, where the matcher
succeeds. -/
def searchL (m : List Char → Option (List Char)) : List Char → Option (List Char)
  | [] => m []
  | c :: t =>
    match m (c :: t) with
    | some g => some g
    | none => searchL m t

/-- `OCRService._extract_date`: search the whole text with the first date
pattern, then with the second. -/
def extract_date (text : String) : Option String :=
  match searchL matchDateA text.data with
  | some g => some ⟨g⟩
  | none =>
    match searchL matchDateB text.data with
    | some g => some ⟨g⟩
    | none => none

/-- Python `text.split('\n')`: cut the character list at every newline
(an empty text yields one empty piece, like Python). -/
def splitNL (cur : List Char) : List Char → List (List Char)
  | [] => [cur.reverse]
  | c :: t =>
    if c = '\n' then cur.reverse :: splitNL [] t
    else splitNL (c :: cur) t

/-- `OCRService._parse_receipt_text`: split into stripped nonempty lines;
the store name is the first of the first five lines that is longer than
three characters and has no digit; every line may contribute an item; the
total falls back to 0.0 when `_extract_total` returns `None` or 0.0 (the
dict's 'total' entry is a plain float, initialised to 0.0 and only
overwritten by a truthy value). -/
def parse_receipt_text (text : String) : OcrResult :=
  let lines := ((splitNL [] text.data).map
    (fun l => (⟨pyStripL l⟩ : String))).filter (fun l => l ≠ "")
  let store := (lines.take 5).find? (fun l =>
    3 < l.length ∧ ¬ (l.data.any Char.isDigit))
  let items := lines.filterMap extract_item_from_line
  let total := (extract_total lines).getD 0
  { items := items, total := total, store_name := store,
    date := extract_date text, tax := 0 }

/-! ### Generic lemmas about the quantifier combinators -/

theorem firstSome_eq_none {f : ℕ → Option α} {l : List ℕ}
    (h : ∀ i ∈ l, f i = none) : firstSome f l = none := by
  induction l with
  | nil => rfl
  | cons i is ih =>
    simp only [firstSome]
    rw [h i (List.mem_cons_self i is)]
    exact ih (fun j hj => h j (List.mem_cons_of_mem i hj))

theorem greedyQ_eq_none {p : Char → Bool} {lo : ℕ} {s : List Char}
    {k : List Char → List Char → Option α}
    (h : ∀ i, k (s.take i) (s.drop i) = none) : greedyQ p lo s k = none :=
  firstSome_eq_none (fun i _ => h i)

theorem lazyQ_eq_none {p : Char → Bool} {lo : ℕ} {s : List Char}
    {k : List Char → List Char → Option α}
    (h : ∀ i, k (s.take i) (s.drop i) = none) : lazyQ p lo s k = none :=
  firstSome_eq_none (fun i _ => h i)

theorem headRun_eq_zero {p : Char → Bool} {s : List Char}
    (h : ∀ c ∈ s, p c = false) : headRun p s = 0 := by
  cases s with
  | nil => rfl
  | cons c t =>
    simp only [headRun, List.takeWhile]
    rw [h c (List.mem_cons_self c t)]
    rfl

theorem greedyQ_one_eq_none {p : Char → Bool} {s : List Char}
    {k : List Char → List Char → Option α}
    (h : headRun p s = 0) : greedyQ p 1 s k = none := by
  simp only [greedyQ, h]
  rfl

theorem headRun_eq_length {p : Char → Bool} {s : List Char}
    (h : ∀ c ∈ s, p c = true) : headRun p s = s.length := by
  simp only [headRun]
  rw [List.takeWhile_eq_self_iff.mpr h]

theorem greedyQ_eq_of_first {p : Char → Bool} {lo n : ℕ} {s : List Char}
    {k : List Char → List Char → Option α} {a : α}
    (hn : headRun p s = n) (hlo : lo ≤ n)
    (hk : k (s.take n) (s.drop n) = some a) : greedyQ p lo s k = some a := by
  have hsplit : ascRange lo n = List.range' lo (n - lo) ++ [n] := by
    have h1 : n + 1 - lo = (n - lo) + 1 := by omega
    have h2 : lo + (n - lo) = n := by omega
    rw [ascRange, h1, List.range'_1_concat, h2]
  simp only [greedyQ, hn, hsplit, List.reverse_append, List.reverse_cons,
    List.reverse_nil, List.nil_append, List.singleton_append, firstSome, hk]

theorem mem_of_mem_dropWhile {p : Char → Bool} {l : List Char} {x : Char}
    (h : x ∈ l.dropWhile p) : x ∈ l := by
  induction l with
  | nil => simp at h
  | cons c t ih =>
    rw [List.dropWhile_cons] at h
    by_cases hc : p c
    · simp only [hc, if_true] at h
      exact List.mem_cons_of_mem c (ih h)
    · simpa [hc] using h

theorem mem_of_mem_pyStrip {l : List Char} {x : Char}
    (h : x ∈ pyStripL l) : x ∈ l := by
  unfold pyStripL at h
  rw [List.mem_reverse] at h
  have h2 := mem_of_mem_dropWhile h
  rw [List.mem_reverse] at h2
  exact mem_of_mem_dropWhile h2

/-! ### Inversion lemmas for the quantifier combinators -/

theorem firstSome_eq_some {f : ℕ → Option α} {l : List ℕ} {v : α}
    (h : firstSome f l = some v) : ∃ i ∈ l, f i = some v := by
  induction l with
  | nil => simp [firstSome] at h
  | cons i is ih =>
    rw [firstSome] at h
    cases hi : f i with
    | some a =>
      rw [hi] at h
      exact ⟨i, List.mem_cons_self i is, by rw [hi]; exact h⟩
    | none =>
      rw [hi] at h
      obtain ⟨j, hj, hfj⟩ := ih h
      exact ⟨j, List.mem_cons_of_mem i hj, hfj⟩

theorem mem_ascRange {i lo hi : ℕ} (h : i ∈ ascRange lo hi) :
    lo ≤ i ∧ i ≤ hi := by
  rw [ascRange, List.mem_range'] at h
  obtain ⟨j, hj, rfl⟩ := h
  omega

theorem greedyQ_eq_some {p : Char → Bool} {lo : ℕ} {s : List Char}
    {k : List Char → List Char → Option α} {v : α}
    (h : greedyQ p lo s k = some v) :
    ∃ i, lo ≤ i ∧ i ≤ headRun p s ∧ k (s.take i) (s.drop i) = some v := by
  obtain ⟨i, hi, hf⟩ := firstSome_eq_some h
  rw [List.mem_reverse] at hi
  obtain ⟨h1, h2⟩ := mem_ascRange hi
  exact ⟨i, h1, h2, hf⟩

theorem lazyQ_eq_some {p : Char → Bool} {lo : ℕ} {s : List Char}
    {k : List Char → List Char → Option α} {v : α}
    (h : lazyQ p lo s k = some v) :
    ∃ i, lo ≤ i ∧ i ≤ headRun p s ∧ k (s.take i) (s.drop i) = some v := by
  obtain ⟨i, hi, hf⟩ := firstSome_eq_some h
  obtain ⟨h1, h2⟩ := mem_ascRange hi
  exact ⟨i, h1, h2, hf⟩

theorem headRun_le_length (p : Char → Bool) : ∀ s : List Char,
    headRun p s ≤ s.length := by
  intro s
  induction s with
  | nil => simp [headRun]
  | cons a t ih =>
    by_cases hpa : p a
    · have := Nat.succ_le_succ ih
      simpa [headRun, List.takeWhile_cons, hpa] using this
    · simp [headRun, List.takeWhile_cons, hpa]

theorem mem_take_headRun {p : Char → Bool} :
    ∀ {s : List Char} {i : ℕ}, i ≤ headRun p s → ∀ c ∈ s.take i, p c = true := by
  intro s
  induction s with
  | nil =>
    intro i _ c hc
    simp at hc
  | cons a t ih =>
    intro i hi c hc
    by_cases hpa : p a
    · cases i with
      | zero => simp at hc
      | succ j =>
        rw [List.take_succ_cons] at hc
        rcases List.mem_cons.mp hc with rfl | hc2
        · exact hpa
        · refine ih ?_ c hc2
          simp only [headRun, List.takeWhile_cons, hpa, if_true,
            List.length_cons] at hi
          simpa [headRun] using Nat.le_of_succ_le_succ hi
    · simp only [headRun, List.takeWhile_cons, hpa, if_false,
        List.length_nil] at hi
      have : i = 0 := Nat.le_zero.mp hi
      subst this
      simp at hc

theorem head_of_headRun_pos {p : Char → Bool} {s : List Char}
    (h : 1 ≤ headRun p s) : ∃ c, s.head? = some c ∧ p c = true := by
  cases s with
  | nil => simp [headRun] at h
  | cons a t =>
    by_cases hpa : p a
    · exact ⟨a, rfl, hpa⟩
    · simp [headRun, List.takeWhile_cons, hpa] at h

theorem head_take_pos {s : List Char} {i : ℕ} (h : 1 ≤ i) :
    (s.take i).head? = s.head? := by
  cases s with
  | nil => simp
  | cons a t =>
    cases i with
    | zero => omega
    | succ j => simp [List.take_succ_cons]

theorem mem_of_getLast?_eq {l : List Char} {a : Char}
    (h : l.getLast? = some a) : a ∈ l := by
  have h2 : a ∈ l.getLast? := by rw [h]; rfl
  obtain ⟨hne, heq⟩ := List.mem_getLast?_eq_getLast h2
  rw [heq]
  exact List.getLast_mem hne

theorem take_ne_nil_of_run {p : Char → Bool} {s : List Char} {i : ℕ}
    (h1 : 1 ≤ i) (h2 : i ≤ headRun p s) : s.take i ≠ [] := by
  have hlen : (s.take i).length = i := by
    rw [List.length_take]
    have := headRun_le_length p s
    omega
  intro hnil
  rw [hnil] at hlen
  simp at hlen
  omega

theorem getLast_take_run {p : Char → Bool} {s : List Char} {i : ℕ}
    (h1 : 1 ≤ i) (h2 : i ≤ headRun p s) :
    ∃ c, (s.take i).getLast? = some c ∧ p c = true := by
  cases hgl : (s.take i).getLast? with
  | none =>
    exact absurd (List.getLast?_eq_none_iff.mp hgl) (take_ne_nil_of_run h1 h2)
  | some c =>
    exact ⟨c, rfl, mem_take_headRun h2 c (mem_of_getLast?_eq hgl)⟩

/-! ### Character-class facts -/

theorem isPySpace_not_letter {c : Char} (h : isPySpace c = true) :
    isLetterChar c = false := by
  simp [isPySpace] at h
  rcases h with ((((h | h) | h) | h) | h) | h <;> subst h <;> decide

theorem charVal_of_isDigit {c : Char} (h : c.isDigit = true) :
    48 ≤ c.toNat ∧ c.toNat ≤ 57 := by
  simpa [Char.isDigit] using h

theorem isDigit_not_letter {c : Char} (h : c.isDigit = true) :
    isLetterChar c = false := by
  obtain ⟨h1, h2⟩ := charVal_of_isDigit h
  cases hl : isLetterChar c with
  | false => rfl
  | true =>
    exfalso
    simp only [isLetterChar, Bool.or_eq_true, Bool.and_eq_true,
      decide_eq_true_eq] at hl
    have ha : ('a' : Char).toNat = 97 := by decide
    have hA : ('A' : Char).toNat = 65 := by decide
    rcases hl with ⟨hx, _⟩ | ⟨hx, _⟩
    · have hx' : ('a' : Char).toNat ≤ c.toNat := Char.le_def.mp hx
      rw [ha] at hx'
      omega
    · have hx' : ('A' : Char).toNat ≤ c.toNat := Char.le_def.mp hx
      rw [hA] at hx'
      omega

theorem sepChar_not_letter {c : Char} (h : c = '.' ∨ c = ',') :
    isLetterChar c = false := by
  rcases h with h | h <;> subst h <;> decide

theorem toLower_eq_self_of_isDigit {c : Char} (h : c.isDigit = true) :
    c.toLower = c := by
  obtain ⟨h1, h2⟩ := charVal_of_isDigit h
  simp only [Char.toLower]
  rw [if_neg]
  omega

theorem atEnd_head {s : List Char} (h : atEnd s = true) :
    ∀ c, s.head? = some c → isLetterChar c = false := by
  intro c hc
  cases s with
  | nil => simp at hc
  | cons a t =>
    cases t with
    | nil =>
      simp [atEnd] at h
      simp at hc
      rw [← hc, h]
      decide
    | cons b u => simp [atEnd] at h

/-! ### Occurrence and decomposition lemmas -/

theorem startsWithL_append (n t : List Char) :
    startsWithL n (n ++ t) = true := by
  induction n with
  | nil => rfl
  | cons c m ih => simp [startsWithL, ih]

theorem containsL_nil_needle (hay : List Char) : containsL hay [] = true := by
  cases hay with
  | nil => rfl
  | cons c t => simp [containsL, startsWithL]

theorem containsL_append_decomp (pre tok suf : List Char) :
    containsL (pre ++ tok ++ suf) tok = true := by
  induction pre with
  | nil =>
    cases tok with
    | nil => simpa using containsL_nil_needle suf
    | cons c tk =>
      simp only [List.nil_append, List.cons_append, containsL]
      rw [show (c :: (tk ++ suf)) = (c :: tk) ++ suf from rfl]
      rw [startsWithL_append]
      simp
  | cons c p ih =>
    have hstep : containsL ((c :: p) ++ tok ++ suf) tok =
        (startsWithL tok ((c :: p) ++ tok ++ suf) ||
          containsL (p ++ tok ++ suf) tok) := rfl
    rw [hstep, ih]
    simp

theorem exists_strip_decomp (l : List Char) :
    ∃ a b, l = a ++ pyStripL l ++ b := by
  refine ⟨l.takeWhile isPySpace,
    ((l.dropWhile isPySpace).reverse.takeWhile isPySpace).reverse, ?_⟩
  conv_lhs => rw [← List.takeWhile_append_dropWhile (p := isPySpace) (l := l)]
  rw [List.append_assoc]
  congr 1
  conv_lhs => rw [← List.reverse_reverse (l.dropWhile isPySpace),
    ← List.takeWhile_append_dropWhile (p := isPySpace)
      (l := (l.dropWhile isPySpace).reverse)]
  rw [List.reverse_append]
  rfl

theorem containsL_of_tokenOf_strip {l u : List Char}
    (h : tokenOf (pyStripL l) u) : containsL l u = true := by
  obtain ⟨_, pre, suf, hdec, _, _⟩ := h
  obtain ⟨a, b, hl⟩ := exists_strip_decomp l
  rw [hl, hdec]
  have : a ++ (pre ++ u ++ suf) ++ b = (a ++ pre) ++ u ++ (suf ++ b) := by
    simp [List.append_assoc]
  rw [this]
  exact containsL_append_decomp _ _ _

/-- No letter at the end: the side condition `tokenOf` imposes on the text
before the token. -/
def noLetterEnd (l : List Char) : Prop :=
  ∀ c, l.getLast? = some c → isLetterChar c = false

theorem noLetterEnd_of_all {l : List Char}
    (h : ∀ c ∈ l, isLetterChar c = false) : noLetterEnd l :=
  fun c hc => h c (mem_of_getLast?_eq hc)

theorem noLetterEnd_append {x y : List Char}
    (hx : noLetterEnd x) (hy : noLetterEnd y) : noLetterEnd (x ++ y) := by
  intro c hc
  rw [List.getLast?_append] at hc
  cases hyl : y.getLast? with
  | some d =>
    rw [hyl] at hc
    simp [Option.or] at hc
    exact hc ▸ hy d hyl
  | none =>
    rw [hyl] at hc
    simp [Option.or] at hc
    exact hx c hc

theorem noLetterEnd_append_right {x y : List Char} (hne : y ≠ [])
    (hy : noLetterEnd y) : noLetterEnd (x ++ y) := by
  intro c hc
  rw [List.getLast?_append_of_ne_nil x hne] at hc
  exact hy c hc

/-- The unit list starts every entry with a non-digit character. -/
theorem allUnits_head_not_digit :
    ∀ u ∈ allUnits,
      (((pyLowerL u.data).head?.map (fun x => !x.isDigit)).getD false) = true := by
  decide

theorem is_unit_head_digit {g : List Char} {c : Char}
    (hc : g.head? = some c) (hd : c.isDigit = true) :
    is_unit ⟨g⟩ = false := by
  cases g with
  | nil => simp at hc
  | cons a t =>
    simp only [List.head?] at hc
    injection hc with hc
    subst hc
    simp only [is_unit, List.any_eq_false]
    intro u hu heq
    rw [decide_eq_true_eq] at heq
    have hh := allUnits_head_not_digit u hu
    rw [heq] at hh
    simp only [pyLowerL, List.map_cons, List.head?] at hh
    rw [toLower_eq_self_of_isDigit hd] at hh
    simp only [Option.map_some', Option.getD_some] at hh
    rw [hd] at hh
    simp at hh

/-! ### The matched unit group is a whole token of the fragment -/

theorem head_append_left {x y : List Char} (h : x ≠ []) :
    (x ++ y).head? = x.head? := by
  cases x with
  | nil => exact absurd rfl h
  | cons a t => rfl

theorem optFrac_eq_some {r : List Char} {k : List Char → List Char → Option α}
    {v : α} (h : optFrac r k = some v) :
    ∃ m, (∀ c ∈ r.take m, isLetterChar c = false) ∧
      (r.take m = [] ∨ ∃ cl, (r.take m).getLast? = some cl ∧ cl.isDigit = true) ∧
      ∃ fr, k fr (r.drop m) = some v := by
  cases r with
  | nil =>
    simp only [optFrac, Option.orElse] at h
    exact ⟨0, by simp, Or.inl (by simp), [], by simpa using h⟩
  | cons c r' =>
    simp only [optFrac] at h
    by_cases hsep : c = '.' ∨ c = ','
    · rw [if_pos hsep] at h
      cases hA : greedyQ Char.isDigit 1 r' (fun ds rest => k (c :: ds) rest) with
      | some w =>
        rw [hA] at h
        simp only [Option.orElse, Option.some.injEq] at h
        subst h
        obtain ⟨j, hj1, hjle, hk⟩ := greedyQ_eq_some hA
        have hne : r'.take j ≠ [] := take_ne_nil_of_run hj1 hjle
        refine ⟨j + 1, ?_, Or.inr ?_, c :: r'.take j, ?_⟩
        · intro d hd
          rw [List.take_succ_cons] at hd
          rcases List.mem_cons.mp hd with rfl | hd2
          · exact sepChar_not_letter hsep
          · exact isDigit_not_letter (mem_take_headRun hjle d hd2)
        · obtain ⟨cl, hcl, hcld⟩ := getLast_take_run hj1 hjle
          refine ⟨cl, ?_, hcld⟩
          rw [List.take_succ_cons,
            show (c :: r'.take j) = [c] ++ r'.take j from rfl,
            List.getLast?_append_of_ne_nil _ hne]
          exact hcl
        · rw [List.drop_succ_cons]
          exact hk
      | none =>
        rw [hA] at h
        simp only [Option.orElse] at h
        exact ⟨0, by simp, Or.inl (by simp), [], by simpa using h⟩
    · rw [if_neg hsep] at h
      simp only [Option.orElse] at h
      exact ⟨0, by simp, Or.inl (by simp), [], by simpa using h⟩

theorem matchTP1_token {t g1 g2 g3 : List Char}
    (h : matchTP1 t = some (g1, g2, g3)) : tokenOf t g2 ∧ tokenOf t g3 := by
  unfold matchTP1 at h
  obtain ⟨i1, hi1, hle1, h⟩ := greedyQ_eq_some h
  obtain ⟨m2, hall2, _, fr, h⟩ := optFrac_eq_some h
  obtain ⟨j2, _, hle2, h⟩ := greedyQ_eq_some h
  obtain ⟨j3, hj3, hle3, h⟩ := greedyQ_eq_some h
  obtain ⟨j4, hj4, hle4, h⟩ := greedyQ_eq_some h
  unfold dotPlusEnd at h
  obtain ⟨j5, hj5, hle5, h⟩ := greedyQ_eq_some h
  by_cases hend :
      atEnd ((((((t.drop i1).drop m2).drop j2).drop j3).drop j4).drop j5) = true
  case neg => rw [if_neg hend] at h; simp at h
  rw [if_pos hend] at h
  simp only [Option.some.injEq, Prod.mk.injEq] at h
  obtain ⟨_, hg2, hg3⟩ := h
  have e1 : t = t.take i1 ++ t.drop i1 := (List.take_append_drop i1 t).symm
  have e2 : t.drop i1 = (t.drop i1).take m2 ++ (t.drop i1).drop m2 :=
    (List.take_append_drop m2 (t.drop i1)).symm
  have e3 : (t.drop i1).drop m2 =
      ((t.drop i1).drop m2).take j2 ++ ((t.drop i1).drop m2).drop j2 :=
    (List.take_append_drop j2 ((t.drop i1).drop m2)).symm
  have e4 : ((t.drop i1).drop m2).drop j2 =
      (((t.drop i1).drop m2).drop j2).take j3 ++
        (((t.drop i1).drop m2).drop j2).drop j3 :=
    (List.take_append_drop j3 (((t.drop i1).drop m2).drop j2)).symm
  have e5 : (((t.drop i1).drop m2).drop j2).drop j3 =
      ((((t.drop i1).drop m2).drop j2).drop j3).take j4 ++
        ((((t.drop i1).drop m2).drop j2).drop j3).drop j4 :=
    (List.take_append_drop j4 ((((t.drop i1).drop m2).drop j2).drop j3)).symm
  have e6 : (((((t.drop i1).drop m2).drop j2).drop j3).drop j4) =
      (((((t.drop i1).drop m2).drop j2).drop j3).drop j4).take j5 ++
        (((((t.drop i1).drop m2).drop j2).drop j3).drop j4).drop j5 :=
    (List.take_append_drop j5 (((((t.drop i1).drop m2).drop j2).drop j3).drop j4)).symm
  constructor
  · refine ⟨?_, t.take i1 ++ ((t.drop i1).take m2 ++ ((t.drop i1).drop m2).take j2),
      (((t.drop i1).drop m2).drop j2).drop j3, ?_, ?_, ?_⟩
    · rw [← hg2]
      exact take_ne_nil_of_run hj3 hle3
    · rw [← hg2]
      conv_lhs => rw [e1, e2, e3, e4]
      simp [List.append_assoc]
    · apply noLetterEnd_of_all
      intro c hc
      rcases List.mem_append.mp hc with hc1 | hc2
      · exact isDigit_not_letter (mem_take_headRun hle1 c hc1)
      · rcases List.mem_append.mp hc2 with hc3 | hc4
        · exact hall2 c hc3
        · exact isPySpace_not_letter (mem_take_headRun hle2 c hc4)
    · intro c hc
      obtain ⟨c4, hhd, hsp⟩ := head_of_headRun_pos (le_trans hj4 hle4)
      rw [hhd] at hc
      injection hc with hc
      rw [← hc]
      exact isPySpace_not_letter hsp
  · refine ⟨?_, ((t.take i1 ++ ((t.drop i1).take m2 ++ ((t.drop i1).drop m2).take j2)) ++
        (((t.drop i1).drop m2).drop j2).take j3) ++
        ((((t.drop i1).drop m2).drop j2).drop j3).take j4,
      (((((t.drop i1).drop m2).drop j2).drop j3).drop j4).drop j5, ?_, ?_, ?_⟩
    · rw [← hg3]
      exact take_ne_nil_of_run hj5 hle5
    · rw [← hg3]
      conv_lhs => rw [e1, e2, e3, e4, e5, e6]
      simp [List.append_assoc]
    · intro c hc
      rw [List.getLast?_append_of_ne_nil _ (take_ne_nil_of_run hj4 hle4)] at hc
      obtain ⟨cl, hcl, hclsp⟩ := getLast_take_run hj4 hle4
      rw [hcl] at hc
      injection hc with hc
      rw [← hc]
      exact isPySpace_not_letter hclsp
    · exact atEnd_head hend

theorem matchTP2_token {t g1 g2 g3 : List Char}
    (h : matchTP2 t = some (g1, g2, g3)) :
    (∃ c, g2.head? = some c ∧ c.isDigit = true) ∧ tokenOf t g3 := by
  unfold matchTP2 at h
  obtain ⟨i1, _, _, h⟩ := lazyQ_eq_some h
  obtain ⟨j1, _, hle1, h⟩ := greedyQ_eq_some h
  obtain ⟨j2, hj2, hle2, h⟩ := greedyQ_eq_some h
  obtain ⟨m3, _, hlast3, fr, h⟩ := optFrac_eq_some h
  obtain ⟨j4, _, hle4, h⟩ := greedyQ_eq_some h
  obtain ⟨j5, hj5, hle5, h⟩ := greedyQ_eq_some h
  by_cases hend :
      atEnd ((((((t.drop i1).drop j1).drop j2).drop m3).drop j4).drop j5) = true
  case neg => rw [if_neg hend] at h; simp at h
  rw [if_pos hend] at h
  simp only [Option.some.injEq, Prod.mk.injEq] at h
  obtain ⟨_, hg2, hg3⟩ := h
  constructor
  · obtain ⟨c, hhd, hcd⟩ := head_of_headRun_pos (le_trans hj2 hle2)
    refine ⟨c, ?_, hcd⟩
    rw [← hg2,
      head_append_left (take_ne_nil_of_run hj2 hle2),
      head_take_pos hj2]
    exact hhd
  · have e1 : t = t.take i1 ++ t.drop i1 := (List.take_append_drop i1 t).symm
    have e2 : t.drop i1 = (t.drop i1).take j1 ++ (t.drop i1).drop j1 :=
      (List.take_append_drop j1 (t.drop i1)).symm
    have e3 : (t.drop i1).drop j1 =
        ((t.drop i1).drop j1).take j2 ++ ((t.drop i1).drop j1).drop j2 :=
      (List.take_append_drop j2 ((t.drop i1).drop j1)).symm
    have e4 : ((t.drop i1).drop j1).drop j2 =
        (((t.drop i1).drop j1).drop j2).take m3 ++
          (((t.drop i1).drop j1).drop j2).drop m3 :=
      (List.take_append_drop m3 (((t.drop i1).drop j1).drop j2)).symm
    have e5 : (((t.drop i1).drop j1).drop j2).drop m3 =
        ((((t.drop i1).drop j1).drop j2).drop m3).take j4 ++
          ((((t.drop i1).drop j1).drop j2).drop m3).drop j4 :=
      (List.take_append_drop j4 ((((t.drop i1).drop j1).drop j2).drop m3)).symm
    have e6 : ((((t.drop i1).drop j1).drop j2).drop m3).drop j4 =
        (((((t.drop i1).drop j1).drop j2).drop m3).drop j4).take j5 ++
          (((((t.drop i1).drop j1).drop j2).drop m3).drop j4).drop j5 :=
      (List.take_append_drop j5 (((((t.drop i1).drop j1).drop j2).drop m3).drop j4)).symm
    refine ⟨?_, (((t.take i1 ++ (t.drop i1).take j1) ++ ((t.drop i1).drop j1).take j2) ++
          (((t.drop i1).drop j1).drop j2).take m3) ++
          ((((t.drop i1).drop j1).drop j2).drop m3).take j4,
        (((((t.drop i1).drop j1).drop j2).drop m3).drop j4).drop j5, ?_, ?_, ?_⟩
    · rw [← hg3]
      exact take_ne_nil_of_run hj5 hle5
    · rw [← hg3]
      conv_lhs => rw [e1, e2, e3, e4, e5, e6]
      simp [List.append_assoc]
    · intro c hc
      by_cases hj4pos : 1 ≤ j4
      · rw [List.getLast?_append_of_ne_nil _ (take_ne_nil_of_run hj4pos hle4)] at hc
        obtain ⟨cl, hcl, hclsp⟩ := getLast_take_run hj4pos hle4
        rw [hcl] at hc
        injection hc with hc
        rw [← hc]
        exact isPySpace_not_letter hclsp
      · have hj40 : j4 = 0 := by omega
        rw [hj40, List.take_zero, List.append_nil] at hc
        rcases hlast3 with hm30 | ⟨cl, hcl, hcld⟩
        · rw [hm30, List.append_nil] at hc
          rw [List.getLast?_append_of_ne_nil _ (take_ne_nil_of_run hj2 hle2)] at hc
          obtain ⟨cl, hcl, hcld⟩ := getLast_take_run hj2 hle2
          rw [hcl] at hc
          injection hc with hc
          rw [← hc]
          exact isDigit_not_letter hcld
        · have hne3 : (((t.drop i1).drop j1).drop j2).take m3 ≠ [] := by
            intro hnil
            rw [hnil] at hcl
            simp at hcl
          rw [List.getLast?_append_of_ne_nil _ hne3] at hc
          rw [hcl] at hc
          injection hc with hc
          rw [← hc]
          exact isDigit_not_letter hcld
    · exact atEnd_head hend

/-! ### C9 — the suggestion confidence stays in the unit interval -/

theorem min_one_unit_interval {c : ℚ} (h : 0 ≤ c) :
    0 ≤ min c 1 ∧ min c 1 ≤ 1 :=
  ⟨le_min h zero_le_one, min_le_right c 1⟩

theorem decayed_conf_bounds (fs ts rs : ℚ) (d : ℤ)
    (hfs : 0 ≤ fs) (hts : 0 ≤ ts) (hrs : 0 ≤ rs) :
    0 ≤ min (if 60 < d then (fs * 0.4 + ts * 0.4 + rs * 0.2) * 0.5
             else if 30 < d then (fs * 0.4 + ts * 0.4 + rs * 0.2) * 0.8
             else fs * 0.4 + ts * 0.4 + rs * 0.2) 1 ∧
    min (if 60 < d then (fs * 0.4 + ts * 0.4 + rs * 0.2) * 0.5
         else if 30 < d then (fs * 0.4 + ts * 0.4 + rs * 0.2) * 0.8
         else fs * 0.4 + ts * 0.4 + rs * 0.2) 1 ≤ 1 := by
  split_ifs <;> exact min_one_unit_interval (by linarith)

/-- C9: with frequency at least 1 and nonnegative days-since-last, average
interval and purchases-per-week, the confidence computed by
`calc_suggestion_confidence` (the weighted sum of the frequency, time and
regularity scores followed by the age-decay multipliers) lies in the
closed interval from 0 to 1. -/
theorem suggestion_confidence_unit_interval
    (frequency days_since_last : ℤ) (avg_days_since purchases_per_week : ℚ)
    (hf : 1 ≤ frequency) (hd : 0 ≤ days_since_last)
    (ha : 0 ≤ avg_days_since) (hp : 0 ≤ purchases_per_week) :
    0 ≤ calc_suggestion_confidence frequency days_since_last
          avg_days_since purchases_per_week ∧
    calc_suggestion_confidence frequency days_since_last
          avg_days_since purchases_per_week ≤ 1 := by
  have hfq : (0 : ℚ) ≤ (frequency : ℚ) := by exact_mod_cast le_trans zero_le_one hf
  have hfs : (0 : ℚ) ≤ min ((frequency : ℚ) / 10) 1 :=
    le_min (by positivity) zero_le_one
  have hts : (0 : ℚ) ≤
      (if 0 < avg_days_since then
        max 0 (min 1 ((days_since_last : ℚ) / avg_days_since)) else 0.5) := by
    split_ifs
    · exact le_max_left 0 _
    · norm_num
  have hrs : (0 : ℚ) ≤
      (if 0 < purchases_per_week then min purchases_per_week 1 else 0.1) := by
    split_ifs
    · exact le_min hp zero_le_one
    · norm_num
  simpa only [calc_suggestion_confidence] using
    decayed_conf_bounds _ _ _ days_since_last hfs hts hrs

/-- Witness for C9 at frequency 5, 3 days since last purchase, average
interval 2 days and half a purchase per week. -/
theorem suggestion_confidence_unit_interval_witness :
    ((1 : ℤ) ≤ 5 ∧ (0 : ℤ) ≤ 3 ∧ (0 : ℚ) ≤ 2 ∧ (0 : ℚ) ≤ 1 / 2) ∧
    (0 ≤ calc_suggestion_confidence 5 3 2 (1 / 2) ∧
      calc_suggestion_confidence 5 3 2 (1 / 2) ≤ 1) :=
  ⟨by norm_num,
    suggestion_confidence_unit_interval 5 3 2 (1 / 2)
      (by norm_num) (by norm_num) (by norm_num) (by norm_num)⟩

/-! ### C2 — the category scoring rules -/

theorem startsWithL_refl (l : List Char) : startsWithL l l = true := by
  induction l with
  | nil => rfl
  | cons c t ih => simp [startsWithL, ih]

theorem containsL_refl (l : List Char) : containsL l l = true := by
  cases l with
  | nil => rfl
  | cons c t => simp [containsL, startsWithL_refl]

theorem keywordScore_eq_amended (nameL kwL : List Char) :
    keywordScore nameL kwL = amendedKeywordScore nameL kwL := by
  unfold keywordScore amendedKeywordScore
  by_cases hc : containsL nameL kwL
  · by_cases he : kwL = nameL <;> simp [hc, he, containsL_refl]
  · have hne : kwL ≠ nameL := by
      intro h
      subst h
      exact hc (containsL_refl kwL)
    simp [hc, hne]

/-- C2 counterexample: on the name "milk shake" and the keyword table
mapping category b to the keyword ilk and category a to the keyword milk,
the code returns b (both keywords score 5, the first maximum wins) while
the claimed word-boundary rule would score milk as 7 and return a. -/
theorem categorize_item_claim_counterexample :
    categorize_item [("b", ["ilk"]), ("a", ["milk"])] "milk shake" = "b" ∧
    claimCategorize [("b", ["ilk"]), ("a", ["milk"])] "milk shake" = "a" := by
  constructor <;> decide

/-- C2 amended: the classifier scores each keyword 10 for an exact
full-string match and otherwise 5 for any substring match (the 7-point
word-boundary branch of the code is unreachable), sums the keyword
scores per category, returns the first category attaining the maximal
total, and returns "other" when the table is empty or every category
scores 0. -/
theorem categorize_item_eq_amended (tbl : List (String × List String))
    (name : String) : categorize_item tbl name = amendedCategorize tbl name := by
  simp [categorize_item, amendedCategorize, categoryScore, keywordScore_eq_amended]

/-! ### C5 — units are emitted as written, never canonicalized -/

theorem rawItemOf_unit_cases (s : String) :
    (rawItemOf s).unit = "" ∨ (rawItemOf s).unit = "units" ∨
      (is_unit (rawItemOf s).unit = true ∧
        tokenOf (pyStripL s.data) (rawItemOf s).unit.data) := by
  unfold rawItemOf
  rcases h1 : matchTP1 (pyStripL s.data) with _ | ⟨g1, g2, g3⟩
  · rcases h2 : matchTP2 (pyStripL s.data) with _ | ⟨g1, g2, g3⟩
    · rcases h3 : matchTP3 (pyStripL s.data) with _ | ⟨g1, g2⟩
      · rcases h4 : matchTP4 (pyStripL s.data) with _ | ⟨g1, g2⟩
        · rcases h5 : matchTP5 (pyStripL s.data) with _ | g1 <;>
            simp [h1, h2, h3, h4, h5]
        · simp only [h1, h2, h3, h4]
          unfold twoGroups
          split_ifs <;> simp
      · simp only [h1, h2, h3]
        unfold twoGroups
        split_ifs <;> simp
    · simp only [h1, h2]
      obtain ⟨⟨c, hch, hcd⟩, htok3⟩ := matchTP2_token h2
      unfold threeGroups
      by_cases hn : is_number (⟨g1⟩ : String) = true
      · rw [if_pos hn]
        dsimp only
        rw [is_unit_head_digit hch hcd]
        simp
      · rw [if_neg hn]
        dsimp only
        by_cases hu : is_unit (⟨g3⟩ : String) = true
        · rw [if_pos hu]
          exact Or.inr (Or.inr ⟨hu, htok3⟩)
        · rw [if_neg hu]
          simp
  · simp only [h1]
    obtain ⟨htok2, htok3⟩ := matchTP1_token h1
    unfold threeGroups
    by_cases hn : is_number (⟨g1⟩ : String) = true
    · rw [if_pos hn]
      dsimp only
      by_cases hu : is_unit (⟨g2⟩ : String) = true
      · rw [if_pos hu]
        exact Or.inr (Or.inr ⟨hu, htok2⟩)
      · rw [if_neg hu]
        simp
    · rw [if_neg hn]
      dsimp only
      by_cases hu : is_unit (⟨g3⟩ : String) = true
      · rw [if_pos hu]
        exact Or.inr (Or.inr ⟨hu, htok3⟩)
      · rw [if_neg hu]
        simp

/-- C5 amended: whenever the free-text parser emits an item, its unit
field is either the empty string (unrecognized token), the literal
default "units" assigned by the bare-number branches, or a recognized
unit variant that occurs verbatim in the trimmed fragment as a whole
letter token (no letter adjacent on either side) and as a substring of
the raw fragment.  In particular no canonical short form is ever
substituted for the token that was written. -/
theorem parse_single_item_unit_verbatim (s : String) (item : Item)
    (h : parse_single_item s = some item) :
    item.unit = "" ∨ item.unit = "units" ∨
      (is_unit item.unit = true ∧
        tokenOf (pyStripL s.data) item.unit.data ∧
        containsL s.data item.unit.data = true) := by
  simp only [parse_single_item] at h
  split_ifs at h
  simp only [Option.some.injEq] at h
  subst h
  rcases rawItemOf_unit_cases s with h0 | h0 | ⟨hu, htok⟩
  · left
    simpa using h0
  · right; left
    simpa using h0
  · right; right
    refine ⟨by simpa using hu, by simpa using htok, ?_⟩
    simpa using containsL_of_tokenOf_strip htok

/-- C5 counterexample: the fragment "500grams cheese" is parsed with unit
"grams" exactly as written, not the canonical short form "g" the claim
requires. -/
theorem parse_single_item_unit_counterexample :
    (parse_single_item "500grams cheese").map Item.unit = some "grams" ∧
    ¬ ((parse_single_item "500grams cheese").map Item.unit = some "g") := by
  constructor <;> decide

/-- Witness for C5 at the fragment "2kg apples", whose emitted unit is the
recognized variant kg, written in the fragment as a whole token. -/
theorem parse_single_item_unit_verbatim_witness :
    (Item.mk "Apples" "2" "kg" "2kg apples").unit = "" ∨
      (Item.mk "Apples" "2" "kg" "2kg apples").unit = "units" ∨
      (is_unit (Item.mk "Apples" "2" "kg" "2kg apples").unit = true ∧
        tokenOf (pyStripL ("2kg apples" : String).data)
          (Item.mk "Apples" "2" "kg" "2kg apples").unit.data ∧
        containsL ("2kg apples" : String).data
          (Item.mk "Apples" "2" "kg" "2kg apples").unit.data = true) :=
  parse_single_item_unit_verbatim "2kg apples"
    (Item.mk "Apples" "2" "kg" "2kg apples") (by decide)

/-! ### C10 — exactly which fragments the free-text parser rejects -/

/-- C10: the free-text item parser returns `None` exactly for the
fragments shorter than two characters and for those whose cleaned,
article-stripped name ends up shorter than two characters; every such
fragment is skipped rather than emitted. -/
theorem parse_single_item_eq_none_iff (s : String) :
    parse_single_item s = none ↔
      s.length < 2 ∨ (clean_item_name (rawItemOf s).name).length < 2 := by
  simp only [parse_single_item]
  split_ifs with h1 h2 <;> simp_all

/-! ### C4 — fragments without digits fall to the catch-all pattern -/

theorem matchTP1_eq_none {t : List Char}
    (h : ∀ c ∈ t, c.isDigit = false) : matchTP1 t = none :=
  greedyQ_one_eq_none (headRun_eq_zero h)

theorem matchTP3_eq_none {t : List Char}
    (h : ∀ c ∈ t, c.isDigit = false) : matchTP3 t = none :=
  greedyQ_one_eq_none (headRun_eq_zero h)

theorem matchTP2_eq_none {t : List Char}
    (h : ∀ c ∈ t, c.isDigit = false) : matchTP2 t = none := by
  unfold matchTP2
  apply lazyQ_eq_none
  intro i
  apply greedyQ_eq_none
  intro j
  exact greedyQ_one_eq_none (headRun_eq_zero (fun c hc =>
    h c (List.drop_subset _ _ (List.drop_subset _ _ hc))))

theorem matchTP4_eq_none {t : List Char}
    (h : ∀ c ∈ t, c.isDigit = false) : matchTP4 t = none := by
  unfold matchTP4
  apply lazyQ_eq_none
  intro i
  apply greedyQ_eq_none
  intro j
  exact greedyQ_one_eq_none (headRun_eq_zero (fun c hc =>
    h c (List.drop_subset _ _ (List.drop_subset _ _ hc))))

theorem matchTP5_eq_self {t : List Char} (hne : t ≠ [])
    (hnl : ∀ c ∈ t, c ≠ '\n') : matchTP5 t = some t := by
  unfold matchTP5 dotPlusEnd
  apply greedyQ_eq_of_first (n := t.length)
  · exact headRun_eq_length (fun c hc => by
      simp [isDotChar, hnl c hc])
  · have := List.length_pos.mpr hne
    omega
  · simp [atEnd]

/-- C4 amended: a fragment of length at least 2 containing no digit and no
newline, nonempty once stripped, whose cleaned name keeps length at least
2, matches none of the four numeric patterns and falls to the catch-all,
so the parser returns quantity "unknown" (not 1.0), an empty unit (not
"piece"), and the cleaned, title-cased fragment as the name. -/
theorem parse_single_item_no_digit (s : String)
    (hnd : ∀ c ∈ s.data, c.isDigit = false)
    (hnl : ∀ c ∈ s.data, c ≠ '\n')
    (hlen : 2 ≤ s.length)
    (hstrip : pyStripL s.data ≠ [])
    (hclean : 2 ≤ (clean_item_name ⟨pyStripL s.data⟩).length) :
    parse_single_item s =
      some ⟨clean_item_name ⟨pyStripL s.data⟩, "unknown", "", s⟩ := by
  have hsub : ∀ c ∈ pyStripL s.data, c ∈ s.data := fun c hc => mem_of_mem_pyStrip hc
  have h1 := matchTP1_eq_none (fun c hc => hnd c (hsub c hc))
  have h2 := matchTP2_eq_none (fun c hc => hnd c (hsub c hc))
  have h3 := matchTP3_eq_none (fun c hc => hnd c (hsub c hc))
  have h4 := matchTP4_eq_none (fun c hc => hnd c (hsub c hc))
  have h5 := matchTP5_eq_self hstrip (fun c hc => hnl c (hsub c hc))
  have hraw : rawItemOf s = ⟨⟨pyStripL s.data⟩, "unknown", "", s⟩ := by
    unfold rawItemOf
    simp only [h1, h2, h3, h4, h5]
  have hL : ¬ (s.length < 2) := by omega
  have hC : ¬ ((clean_item_name ⟨pyStripL s.data⟩).length < 2) := by omega
  simp [parse_single_item, hraw, hL, hC]

/-- C4 counterexample: the digitless fragment "bread" is parsed with
quantity "unknown" and an empty unit, not quantity 1.0 and unit "piece". -/
theorem parse_single_item_no_digit_counterexample :
    parse_single_item "bread" = some ⟨"Bread", "unknown", "", "bread"⟩ ∧
    ¬ ((parse_single_item "bread").map Item.quantity = some "1.0") ∧
    ¬ ((parse_single_item "bread").map Item.unit = some "piece") := by
  refine ⟨by decide, by decide, by decide⟩

/-- Witness for C4 at the fragment "bread". -/
theorem parse_single_item_no_digit_witness :
    ((∀ c ∈ ("bread" : String).data, c.isDigit = false) ∧
      (∀ c ∈ ("bread" : String).data, c ≠ '\n') ∧
      2 ≤ ("bread" : String).length ∧
      pyStripL ("bread" : String).data ≠ [] ∧
      2 ≤ (clean_item_name ⟨pyStripL ("bread" : String).data⟩).length) ∧
    parse_single_item "bread" =
      some ⟨clean_item_name ⟨pyStripL ("bread" : String).data⟩, "unknown", "", "bread"⟩ :=
  ⟨⟨by decide, by decide, by decide, by decide, by decide⟩,
    parse_single_item_no_digit "bread" (by decide) (by decide) (by decide)
      (by decide) (by decide)⟩

/-! ### C3 — what the pattern analyzer computes per group -/

theorem mem_dedupFirstAux [DecidableEq α] (l : List α) :
    ∀ (seen : List α) (a : α), a ∈ dedupFirstAux seen l ↔ a ∈ l ∧ a ∉ seen := by
  induction l with
  | nil => intro seen a; simp [dedupFirstAux]
  | cons b t ih =>
    intro seen a
    simp only [dedupFirstAux]
    split_ifs with hb
    · rw [ih]
      constructor
      · rintro ⟨hl, hs⟩
        exact ⟨List.mem_cons_of_mem b hl, hs⟩
      · rintro ⟨hl, hs⟩
        rcases List.mem_cons.mp hl with rfl | hl
        · exact absurd hb hs
        · exact ⟨hl, hs⟩
    · rw [List.mem_cons, ih]
      constructor
      · rintro (rfl | ⟨hl, hs⟩)
        · exact ⟨List.mem_cons_self a t, fun hc => hb (by simpa using hc)⟩
        · refine ⟨List.mem_cons_of_mem b hl, fun hc => hs (List.mem_cons_of_mem b hc)⟩
      · rintro ⟨hl, hs⟩
        by_cases hab : a = b
        · exact Or.inl hab
        · have hlt : a ∈ t := by
            rcases List.mem_cons.mp hl with h | h
            · exact absurd h hab
            · exact h
          refine Or.inr ⟨hlt, fun hc => ?_⟩
          rcases List.mem_cons.mp hc with h | h
          · exact hab h
          · exact hs h

theorem mem_dedupFirst [DecidableEq α] (l : List α) (a : α) :
    a ∈ dedupFirst l ↔ a ∈ l := by
  rw [dedupFirst, mem_dedupFirstAux]
  simp

/-- C3 counterexample: a user buys Milk on day 0 and on day 10 (epoch
seconds 0 and 864000), queried at day 10.  The analyzer's aggregate is the
mean age of the purchases, 5 days, while the claimed formula
(last minus first in days) divided by (frequency minus 1) gives 10. -/
theorem get_purchase_patterns_counterexample :
    get_purchase_patterns 864000
        [⟨"Milk", "dairy", 0⟩, ⟨"Milk", "dairy", 864000⟩] =
      [⟨"Milk", "dairy", 2, 5, 864000, 0⟩] ∧
    ((864000 - 0 : ℚ) / 86400) / ((2 : ℚ) - 1) = 10 ∧ (5 : ℚ) ≠ 10 := by
  have h0 : get_purchase_patterns 864000
      [⟨"Milk", "dairy", 0⟩, ⟨"Milk", "dairy", 864000⟩] =
      [patternOfGroup 864000 ("Milk", "dairy") [0, 864000]] := rfl
  have h1 : patternOfGroup 864000 ("Milk", "dairy") [0, 864000] =
      ⟨"Milk", "dairy", 2, 5, 864000, 0⟩ := by
    simp only [patternOfGroup, maxOf, minOf, List.map_cons, List.map_nil,
      List.sum_cons, List.sum_nil, List.length_cons, List.length_nil,
      List.foldl_cons, List.foldl_nil]
    norm_num
  rw [h0, h1]
  refine ⟨rfl, by norm_num, by norm_num⟩

/-- C3 amended: for every (item_name, category) group with more than one
record, the analyzer emits a pattern whose frequency is the record count,
whose first and last purchase are the extreme dates, and whose
avg_days_since is the mean over the group of (now minus purchase_date) in
days — the average age of the purchases, not the average inter-purchase
interval. -/
theorem get_purchase_patterns_group (now : ℚ) (rows : List Purchase)
    (k : String × String) (h : 2 ≤ (groupDates rows k).length) :
    ∃ p ∈ get_purchase_patterns now rows,
      p.item_name = k.1 ∧ p.category = k.2 ∧
      p.frequency = (groupDates rows k).length ∧
      p.avg_days_since =
        ((groupDates rows k).map (fun d => (now - d) / 86400)).sum /
          ((groupDates rows k).length : ℚ) ∧
      p.last_purchase = maxOf (groupDates rows k) ∧
      p.first_purchase = minOf (groupDates rows k) := by
  have hne : groupDates rows k ≠ [] := by
    intro hnil
    rw [hnil] at h
    simp at h
  have hk : k ∈ dedupFirst (rows.map keyOf) := by
    rw [mem_dedupFirst]
    obtain ⟨d, hd⟩ := List.exists_mem_of_ne_nil _ hne
    unfold groupDates at hd
    rw [List.mem_map] at hd
    obtain ⟨r, hr, _⟩ := hd
    have hr2 := List.mem_filter.mp hr
    rw [List.mem_map]
    exact ⟨r, hr2.1, by simpa using hr2.2⟩
  refine ⟨patternOfGroup now k (groupDates rows k), ?_, ?_⟩
  · unfold get_purchase_patterns
    rw [List.mem_insertionSort]
    rw [List.mem_filterMap]
    refine ⟨k, hk, ?_⟩
    rw [if_pos (by omega)]
  · simp [patternOfGroup]

/-- Witness for C3 on the two-purchase Milk history of the
counterexample's input. -/
theorem get_purchase_patterns_group_witness :
    2 ≤ (groupDates [⟨"Milk", "dairy", 0⟩, ⟨"Milk", "dairy", 864000⟩]
          ("Milk", "dairy")).length ∧
    ∃ p ∈ get_purchase_patterns 864000
          [⟨"Milk", "dairy", 0⟩, ⟨"Milk", "dairy", 864000⟩],
      p.item_name = ("Milk", "dairy").1 ∧ p.category = ("Milk", "dairy").2 ∧
      p.frequency = (groupDates [⟨"Milk", "dairy", 0⟩, ⟨"Milk", "dairy", 864000⟩]
          ("Milk", "dairy")).length ∧
      p.avg_days_since =
        ((groupDates [⟨"Milk", "dairy", 0⟩, ⟨"Milk", "dairy", 864000⟩]
            ("Milk", "dairy")).map (fun d => (864000 - d) / 86400)).sum /
          ((groupDates [⟨"Milk", "dairy", 0⟩, ⟨"Milk", "dairy", 864000⟩]
            ("Milk", "dairy")).length : ℚ) ∧
      p.last_purchase = maxOf (groupDates [⟨"Milk", "dairy", 0⟩,
          ⟨"Milk", "dairy", 864000⟩] ("Milk", "dairy")) ∧
      p.first_purchase = minOf (groupDates [⟨"Milk", "dairy", 0⟩,
          ⟨"Milk", "dairy", 864000⟩] ("Milk", "dairy")) :=
  ⟨by decide,
    get_purchase_patterns_group 864000
      [⟨"Milk", "dairy", 0⟩, ⟨"Milk", "dairy", 864000⟩] ("Milk", "dairy")
      (by decide)⟩

/-! ### C8 — shape of the generated suggestion lists -/

/-- C8: every category list produced by the suggestion generator contains
only suggestions whose confidence exceeds 0.3, is sorted in descending
order of confidence, and has at most five entries. -/
theorem generate_suggestions_shape (now : ℚ) (patterns : List PatternRow)
    (c : String) (l : List Suggestion)
    (h : (c, l) ∈ generate_shopping_suggestions now patterns) :
    (∀ s ∈ l, (0.3 : ℚ) < s.confidence) ∧
      List.Sorted confGE l ∧ l.length ≤ 5 := by
  simp only [generate_shopping_suggestions] at h
  rw [List.mem_map] at h
  obtain ⟨c', _, heq⟩ := h
  injection heq with hc hl
  subst hc
  subst hl
  refine ⟨?_, ?_, ?_⟩
  · intro s hs
    have hs1 : s ∈ List.insertionSort confGE _ :=
      List.take_subset 5 _ hs
    rw [List.mem_insertionSort, List.mem_map] at hs1
    obtain ⟨q, hq, rfl⟩ := hs1
    obtain ⟨p, _, hpq⟩ := List.mem_filterMap.mp (List.mem_filter.mp hq).1
    by_cases hconf : (0.3 : ℚ) < (suggestionOf now p).confidence
    · rw [if_pos hconf] at hpq
      injection hpq with hpq2
      rw [← hpq2]
      exact hconf
    · rw [if_neg hconf] at hpq
      exact absurd hpq (by simp)
  · exact List.Pairwise.sublist (List.take_sublist 5 _)
      (List.sorted_insertionSort confGE _)
  · exact List.length_take_le 5 _

theorem suggestionOf_of_witness_pattern :
    suggestionOf (70 * 86400) ⟨"Milk", "dairy", 10, 7, 63 * 86400, 0⟩ =
      Suggestion.mk "Milk" 1 10 7 7 := by
  have hd1 : ⌊((70 * 86400 : ℚ) - 63 * 86400) / 86400⌋ = 7 := by
    rw [Int.floor_eq_iff]
    norm_num
  have hd2 : ⌊((70 * 86400 : ℚ) - 0) / 86400⌋ = 70 := by
    rw [Int.floor_eq_iff]
    norm_num
  simp only [suggestionOf, hd1, hd2]
  norm_num [calc_suggestion_confidence, min_def, max_def]

theorem generate_of_witness_pattern :
    generate_shopping_suggestions (70 * 86400)
        [⟨"Milk", "dairy", 10, 7, 63 * 86400, 0⟩] =
      [("dairy", [Suggestion.mk "Milk" 1 10 7 7])] := by
  simp only [generate_shopping_suggestions, List.filterMap,
    suggestionOf_of_witness_pattern]
  norm_num [dedupFirst, dedupFirstAux]

/-- Witness for C8: a Milk pattern bought ten times over 70 days, last
seen 7 days ago, yields confidence 1 and one dairy suggestion. -/
theorem generate_suggestions_shape_witness :
    (∀ s ∈ [Suggestion.mk "Milk" 1 10 7 7], (0.3 : ℚ) < s.confidence) ∧
      List.Sorted confGE [Suggestion.mk "Milk" 1 10 7 7] ∧
      ([Suggestion.mk "Milk" 1 10 7 7]).length ≤ 5 :=
  generate_suggestions_shape (70 * 86400)
    [⟨"Milk", "dairy", 10, 7, 63 * 86400, 0⟩]
    "dairy" [Suggestion.mk "Milk" 1 10 7 7]
    (by rw [generate_of_witness_pattern]; exact List.mem_singleton.mpr rfl)

/-! ### C6 — how the grand total is resolved -/

/-- A line the spec calls a TotalLine: it contains a total keyword and at
least one currency-formatted number. -/
def isTotalLine (l : String) : Bool :=
  hasTotalKeyword l && !(priceFindAll l.data).isEmpty

/-- Modelled from the spec: the total resolution C6 describes — the last
price on the last TotalLine when one exists, otherwise the maximum of all
prices anywhere in the text, otherwise `None`. -/
def totalResolutionSpec (lines : List String) : Option ℚ :=
  match (lines.filter isTotalLine).getLast? with
  | some l => ((priceFindAll l.data).getLast?).map priceVal
  | none => maxListQ (allPrices lines)

theorem extractTotalGo_eq_find (m : List String) :
    extractTotalGo m =
      (m.find? isTotalLine).bind
        (fun l => ((priceFindAll l.data).getLast?).map priceVal) := by
  induction m with
  | nil => rfl
  | cons l rest ih =>
    simp only [extractTotalGo]
    by_cases hkw : hasTotalKeyword l
    · rw [if_pos hkw]
      cases hp : (priceFindAll l.data).getLast? with
      | some p =>
        have hne : (priceFindAll l.data).isEmpty = false := by
          cases hfa : priceFindAll l.data with
          | nil => rw [hfa] at hp; simp at hp
          | cons a t => simp
        have htl : isTotalLine l = true := by
          simp [isTotalLine, hkw, hne]
        rw [List.find?_cons_of_pos _ htl]
        simp [hp]
      | none =>
        have hemp : priceFindAll l.data = [] := by
          cases hfa : priceFindAll l.data with
          | nil => rfl
          | cons a t =>
            rw [hfa] at hp
            simp [List.getLast?] at hp
        have htl : isTotalLine l = false := by
          simp [isTotalLine, hemp]
        rw [List.find?_cons_of_neg _ (by simp [htl]), ih]
    · rw [if_neg hkw]
      have htl : isTotalLine l = false := by
        simp [isTotalLine, hkw]
      rw [List.find?_cons_of_neg _ (by simp [htl]), ih]

theorem head_filter_eq_find (p : String → Bool) (m : List String) :
    (m.filter p).head? = m.find? p := by
  induction m with
  | nil => rfl
  | cons l rest ih =>
    by_cases hp : p l
    · simp [List.filter_cons, hp, List.find?_cons_of_pos _ hp]
    · simp only [List.filter_cons, hp, if_neg, Bool.false_eq_true, ite_false]
      rw [List.find?_cons_of_neg _ (by simp [hp])]
      exact ih

theorem getLast_filter_eq_find_reverse (p : String → Bool) (lines : List String) :
    (lines.filter p).getLast? = lines.reverse.find? p := by
  rw [← List.head?_reverse, ← List.filter_reverse]
  exact head_filter_eq_find p lines.reverse

/-- C6: for every list of OCR lines, the extracted total is the last price
on the last line that both contains a total keyword and has at least one
currency-formatted number; when no such line exists it is the maximum of
all prices found anywhere, and `None` when there are none. -/
theorem extract_total_eq_spec (lines : List String) :
    extract_total lines = totalResolutionSpec lines := by
  unfold extract_total totalResolutionSpec
  rw [extractTotalGo_eq_find, getLast_filter_eq_find_reverse]
  cases h : lines.reverse.find? isTotalLine with
  | none => simp
  | some l =>
    have hl : isTotalLine l = true := List.find?_some h
    have hne : priceFindAll l.data ≠ [] := by
      intro hnil
      simp [isTotalLine, hnil] at hl
    cases hp : (priceFindAll l.data).getLast? with
    | none =>
      exact absurd (List.getLast?_eq_none_iff.mp hp) hne
    | some p => simp [hp]

/-! ### C1 and C7 — concrete receipt scenarios -/

theorem priceVal_500 : priceVal ['5', '.', '0', '0'] = 5 := by
  have h1 : List.takeWhile Char.isDigit ['5', '.', '0', '0'] = ['5'] := by decide
  have h2 : List.dropWhile Char.isDigit ['5', '.', '0', '0'] = ['.', '0', '0'] := by
    decide
  simp only [priceVal, h1, h2]
  norm_num [show natOfDigits ['5'] = 5 from by decide,
    show natOfDigits ['0', '0'] = 0 from by decide]

theorem priceVal_350 : priceVal ['3', '.', '5', '0'] = 7 / 2 := by
  have h1 : List.takeWhile Char.isDigit ['3', '.', '5', '0'] = ['3'] := by decide
  have h2 : List.dropWhile Char.isDigit ['3', '.', '5', '0'] = ['.', '5', '0'] := by
    decide
  simp only [priceVal, h1, h2]
  norm_num [show natOfDigits ['3'] = 3 from by decide,
    show natOfDigits ['5', '0'] = 50 from by decide]

theorem priceVal_850 : priceVal ['8', '.', '5', '0'] = 17 / 2 := by
  have h1 : List.takeWhile Char.isDigit ['8', '.', '5', '0'] = ['8'] := by decide
  have h2 : List.dropWhile Char.isDigit ['8', '.', '5', '0'] = ['.', '5', '0'] := by
    decide
  simp only [priceVal, h1, h2]
  norm_num [show natOfDigits ['8'] = 8 from by decide,
    show natOfDigits ['5', '0'] = 50 from by decide]

/-- C1 counterexample: the scenario receipt does not yield two items — the
quantity and unit tokens are not parsed out, and the total line is not
excluded, so three items are produced. -/
theorem parse_receipt_scenario1_counterexample :
    ¬ ((parse_receipt_text
        "SuperMart\nApples 2kg 5.00\nMilk 1L 3.50\nTotal 8.50").items.length = 2) := by
  decide

/-- C1 amended: on the scenario receipt the parser returns store name
SuperMart and three items — (name "Apples 2kg", quantity 1, prices 5.00),
(name "Milk 1L", quantity 1, prices 3.50) and (name "Total", quantity 1,
prices 8.50), with no unit field — and total 8.50. -/
theorem parse_receipt_scenario1 :
    parse_receipt_text "SuperMart\nApples 2kg 5.00\nMilk 1L 3.50\nTotal 8.50" =
      ⟨[⟨"Apples 2kg", 1, 5, 5⟩, ⟨"Milk 1L", 1, 7 / 2, 7 / 2⟩,
        ⟨"Total", 1, 17 / 2, 17 / 2⟩],
        17 / 2, some "SuperMart", none, 0⟩ := by
  have h0 : parse_receipt_text
      "SuperMart\nApples 2kg 5.00\nMilk 1L 3.50\nTotal 8.50" =
      ⟨[⟨"Apples 2kg", 1, priceVal ['5', '.', '0', '0'], priceVal ['5', '.', '0', '0']⟩,
        ⟨"Milk 1L", 1, priceVal ['3', '.', '5', '0'], priceVal ['3', '.', '5', '0']⟩,
        ⟨"Total", 1, priceVal ['8', '.', '5', '0'], priceVal ['8', '.', '5', '0']⟩],
        priceVal ['8', '.', '5', '0'], some "SuperMart", none, 0⟩ := rfl
  rw [h0, priceVal_500, priceVal_350, priceVal_850]

/-- C7 counterexample: on empty OCR text the returned dict carries the
plain float 0.0 in its total field (the nullable extractor's `None` is
replaced by the 0.0 initialisation), so the extraction's total is the
number 0.0 and not null. -/
theorem parse_receipt_empty_counterexample :
    (parse_receipt_text "").total = 0 ∧
      extract_total (((splitNL [] ("" : String).data).map
        (fun l => (⟨pyStripL l⟩ : String))).filter (fun l => l ≠ "")) = none := by
  exact ⟨rfl, rfl⟩

/-- C7 amended: parsing empty OCR text yields no items, total 0.0 (a plain
float, not null), no store name and no date, without error. -/
theorem parse_receipt_empty :
    parse_receipt_text "" = ⟨[], 0, none, none, 0⟩ := rfl

end ShopBot
